import Mathlib

/-!
Verification of the vibe-board single-page task board.

The development embeds the data model (`src/types.ts`) and the state
operations of the `App` component (`src/App.tsx`): drag-and-drop status
resolution (`handleDragEnd`), creation and deletion of tasks and quick
todos, toggling, and the localStorage persistence layer (JSON encoding
and string-level parsing, modelling `JSON.stringify` / `JSON.parse`).

Statuses are represented by their runtime strings: the TypeScript union
`TaskStatus` erases to a plain string at runtime, and the board invariant
that every stored status is one of the three column ids is proved, not
assumed by typing.
-/

namespace Vibe

/-- Runtime representation of a `Task` record (types.ts). The optional
`description` is `none` exactly when the field is absent / `undefined`. -/
structure Task where
  id : String
  title : String
  description : Option String
  status : String
  createdAt : Nat
deriving DecidableEq

/-- Runtime representation of a `QuickTodo` record (types.ts). -/
structure QuickTodo where
  id : String
  text : String
  done : Bool
deriving DecidableEq

/-- One kanban column of the `COLUMNS` constant. -/
structure Column where
  id : String
  label : String
deriving DecidableEq

/-- The `COLUMNS` constant of App.tsx. -/
def COLUMNS : List Column :=
  [⟨"todo", "To Do"⟩, ⟨"in-progress", "In Progress"⟩, ⟨"complete", "Complete"⟩]

/-- The three column ids. -/
def colIds : List String := COLUMNS.map Column.id

/-- A drag-end event as far as `handleDragEnd` inspects it: the id of the
dragged element and the id of the drop target, when there is one. -/
structure DragEndEvent where
  activeId : String
  overId : Option String
deriving DecidableEq

/-- `generateId`: `Math.random().toString(36).slice(2, 11)`. The argument is
the base-36 fraction-digit expansion of the `Math.random()` result (the
leading `0.` removed by `slice(2, _)`); the slice keeps at most nine of those
characters. `Math.random` guarantees nothing about distinctness across calls,
so distinct calls may receive the same expansion. -/
def generateId (fracDigits : List Char) : String :=
  String.mk (fracDigits.take 9)

/-- Whitespace as trimmed by `String.prototype.trim`: the ASCII whitespace
characters (tab, line feed, vertical tab, form feed, carriage return, space).
JS also strips some Unicode space characters; the app only ever distinguishes
an all-whitespace input from one with visible content, so the ASCII set is the
faithful core of the builtin. -/
def isJsWs (c : Char) : Bool :=
  c = ' ' || c = '\t' || c = '\n' || c = '\x0b' || c = '\x0c' || c = '\r'

/-- `String.prototype.trim`: remove leading and trailing whitespace. -/
def jsTrim (s : String) : String :=
  String.mk (((s.data.dropWhile isJsWs).reverse.dropWhile isJsWs).reverse)

/-- `handleDragEnd` (App.tsx): resolve a drop to a status change. A drop on a
column sets the dragged task's status to that column id; otherwise a drop on a
task with a different status adopts that task's status; otherwise nothing
changes. -/
def handleDragEnd (tasks : List Task) (ev : DragEndEvent) : List Task :=
  match ev.overId with
  | none => tasks
  | some overId =>
    match tasks.find? (fun t => t.id == ev.activeId) with
    | none => tasks
    | some activeTask =>
      match COLUMNS.find? (fun c => c.id == overId) with
      | some targetColumn =>
        tasks.map (fun t =>
          if t.id == ev.activeId then { t with status := targetColumn.id } else t)
      | none =>
        match tasks.find? (fun t => t.id == overId) with
        | some overTask =>
          if activeTask.status ≠ overTask.status then
            tasks.map (fun t =>
              if t.id == ev.activeId then { t with status := overTask.status } else t)
          else tasks
        | none => tasks

/-- `addTask` (App.tsx): reject a blank title, otherwise append the new task,
with trimmed title and with the trimmed description or no description at all
when the trimmed description is empty (`newTaskDesc.trim() || undefined`).
The id produced by `generateId` and the `Date.now()` timestamp are passed in. -/
def addTask (tasks : List Task) (newTaskTitle newTaskDesc newTaskStatus newId : String)
    (now : Nat) : List Task :=
  if jsTrim newTaskTitle = "" then tasks
  else
    tasks ++ [{ id := newId, title := jsTrim newTaskTitle,
                description := if jsTrim newTaskDesc = "" then none else some (jsTrim newTaskDesc),
                status := newTaskStatus, createdAt := now }]

/-- `deleteTask` (App.tsx): keep every task with a different id. -/
def deleteTask (tasks : List Task) (id : String) : List Task :=
  tasks.filter (fun t => t.id != id)

/-- `addTodo` (App.tsx): reject blank input, otherwise append a not-done todo
with the trimmed text. -/
def addTodo (todos : List QuickTodo) (newTodo newId : String) : List QuickTodo :=
  if jsTrim newTodo = "" then todos
  else todos ++ [{ id := newId, text := jsTrim newTodo, done := false }]

/-- `toggleTodo` (App.tsx): flip the `done` flag of the todo with the given id. -/
def toggleTodo (todos : List QuickTodo) (id : String) : List QuickTodo :=
  todos.map (fun t => if t.id == id then { t with done := !t.done } else t)

/-- `deleteTodo` (App.tsx): keep every todo with a different id. -/
def deleteTodo (todos : List QuickTodo) (id : String) : List QuickTodo :=
  todos.filter (fun t => t.id != id)

/-- Task states reachable from the empty board through the task operations.
`addTask` is only ever submitted with a status chosen by `openAddTask`, whose
argument is always a column id (the add button of a column), so the status
argument carries that fact. -/
inductive ReachTasks : List Task → Prop
  | init : ReachTasks []
  | drag (ts : List Task) (ev : DragEndEvent) :
      ReachTasks ts → ReachTasks (handleDragEnd ts ev)
  | add (ts : List Task) (title desc st id : String) (now : Nat) :
      ReachTasks ts → st ∈ colIds → ReachTasks (addTask ts title desc st id now)
  | del (ts : List Task) (id : String) :
      ReachTasks ts → ReachTasks (deleteTask ts id)

/-- Board states reachable from the empty board when every id handed out by
`generateId` happens to be fresh for its collection. `generateId` itself cannot
guarantee this (see the counterexample to C3): freshness is a hypothesis. -/
inductive ReachBoardFresh : List Task → List QuickTodo → Prop
  | init : ReachBoardFresh [] []
  | drag (ts : List Task) (ds : List QuickTodo) (ev : DragEndEvent) :
      ReachBoardFresh ts ds → ReachBoardFresh (handleDragEnd ts ev) ds
  | addT (ts : List Task) (ds : List QuickTodo) (title desc st id : String) (now : Nat) :
      ReachBoardFresh ts ds → id ∉ ts.map Task.id →
      ReachBoardFresh (addTask ts title desc st id now) ds
  | delT (ts : List Task) (ds : List QuickTodo) (id : String) :
      ReachBoardFresh ts ds → ReachBoardFresh (deleteTask ts id) ds
  | addD (ts : List Task) (ds : List QuickTodo) (txt id : String) :
      ReachBoardFresh ts ds → id ∉ ds.map QuickTodo.id →
      ReachBoardFresh ts (addTodo ds txt id)
  | togD (ts : List Task) (ds : List QuickTodo) (id : String) :
      ReachBoardFresh ts ds → ReachBoardFresh ts (toggleTodo ds id)
  | delD (ts : List Task) (ds : List QuickTodo) (id : String) :
      ReachBoardFresh ts ds → ReachBoardFresh ts (deleteTodo ds id)

/-! ### Helper lemmas about the board operations -/

/-- Rewriting one task's status in place keeps the id sequence. -/
theorem map_setStatus_id (ts : List Task) (aid s : String) :
    (ts.map (fun t => if t.id == aid then { t with status := s } else t)).map Task.id
      = ts.map Task.id := by
  rw [List.map_map]
  refine List.map_congr_left fun t _ => ?_
  by_cases h : t.id = aid <;> simp [h]

/-- `handleDragEnd` keeps the id sequence of the stored array. -/
theorem dragEnd_map_id (tasks : List Task) (ev : DragEndEvent) :
    (handleDragEnd tasks ev).map Task.id = tasks.map Task.id := by
  unfold handleDragEnd
  split
  · rfl
  · split
    · rfl
    · split
      · exact map_setStatus_id ..
      · split
        · split
          · exact map_setStatus_id ..
          · rfl
        · rfl

/-- `toggleTodo` keeps the id sequence of the stored array. -/
theorem toggle_map_id (todos : List QuickTodo) (id : String) :
    (toggleTodo todos id).map QuickTodo.id = todos.map QuickTodo.id := by
  unfold toggleTodo
  rw [List.map_map]
  refine List.map_congr_left fun t _ => ?_
  by_cases h : t.id = id <;> simp [h]

/-- Looking up a column id that is one of the column ids succeeds and returns
a column carrying exactly that id. -/
theorem find_col {cid : String} (hc : cid ∈ colIds) :
    ∃ c, COLUMNS.find? (fun c => c.id == cid) = some c ∧ c.id = cid := by
  simp only [colIds, COLUMNS, List.map_cons, List.map_nil, List.mem_cons,
    List.not_mem_nil, or_false] at hc
  rcases hc with h | h | h <;> subst h <;> exact ⟨_, rfl, rfl⟩

/-- Looking up an id that is not a column id fails. -/
theorem col_find_none (cid : String) (h : cid ∉ colIds) :
    COLUMNS.find? (fun c => c.id == cid) = none := by
  rw [List.find?_eq_none]
  intro c hcmem
  simp only [beq_iff_eq]
  intro he
  exact h (he ▸ List.mem_map_of_mem Column.id hcmem)

/-- Every status present after a drag either was present before or is a column id. -/
theorem dragEnd_status_mem (ts : List Task) (ev : DragEndEvent) :
    ∀ t ∈ handleDragEnd ts ev, t.status ∈ ts.map Task.status ∨ t.status ∈ colIds := by
  unfold handleDragEnd
  split
  · exact fun t ht => Or.inl (List.mem_map_of_mem _ ht)
  · split
    · exact fun t ht => Or.inl (List.mem_map_of_mem _ ht)
    · split
      · rename_i targetColumn hfc
        intro t ht
        rw [List.mem_map] at ht
        obtain ⟨x, hx, rfl⟩ := ht
        by_cases hid : x.id = ev.activeId
        · right
          simp only [hid, beq_self_eq_true, if_true]
          exact List.mem_map_of_mem _ (List.mem_of_find?_eq_some hfc)
        · left
          simp only [beq_iff_eq, hid, if_false]
          exact List.mem_map_of_mem _ hx
      · split
        · rename_i overTask hfo
          split
          · intro t ht
            rw [List.mem_map] at ht
            obtain ⟨x, hx, rfl⟩ := ht
            by_cases hid : x.id = ev.activeId
            · left
              simp only [hid, beq_self_eq_true, if_true]
              exact List.mem_map_of_mem _ (List.mem_of_find?_eq_some hfo)
            · left
              simp only [beq_iff_eq, hid, if_false]
              exact List.mem_map_of_mem _ hx
          · exact fun t ht => Or.inl (List.mem_map_of_mem _ ht)
        · exact fun t ht => Or.inl (List.mem_map_of_mem _ ht)

/-! ### Claims about the board operations -/

/-- C1: on drag end, when the drop target id is one of the three column ids,
the dragged task's status becomes that column id (every other field and task
untouched, being an in-place status rewrite); otherwise, when the drop target
id is the id of a task whose status differs from the dragged task's, the
dragged task's status becomes that task's status. -/
theorem C1_dragEnd_resolution (tasks : List Task) (ev : DragEndEvent) (a : Task)
    (ha : tasks.find? (fun t => t.id == ev.activeId) = some a) :
    (∀ cid, ev.overId = some cid → cid ∈ colIds →
      handleDragEnd tasks ev
        = tasks.map (fun t => if t.id == ev.activeId then { t with status := cid } else t))
    ∧ (∀ oid o, ev.overId = some oid → oid ∉ colIds →
        tasks.find? (fun t => t.id == oid) = some o → o.status ≠ a.status →
        handleDragEnd tasks ev
          = tasks.map (fun t => if t.id == ev.activeId then { t with status := o.status } else t)) := by
  constructor
  · intro cid hov hc
    obtain ⟨c, hfc, hcid⟩ := find_col hc
    unfold handleDragEnd
    simp only [hov, ha, hfc, hcid]
  · intro oid o hov hnc hfo hst
    unfold handleDragEnd
    simp only [hov, ha, col_find_none oid hnc, hfo]
    rw [if_pos fun h => hst h.symm]

/-- C1 witness: a drop on the `complete` column and a drop on a task of a
different status, both from a concrete two-task board. -/
theorem C1_dragEnd_resolution_witness :
    handleDragEnd
        [Task.mk "a1" "T" none "todo" 0, Task.mk "b2" "U" none "in-progress" 0]
        ⟨"a1", some "complete"⟩
      = [Task.mk "a1" "T" none "complete" 0, Task.mk "b2" "U" none "in-progress" 0]
    ∧ handleDragEnd
        [Task.mk "a1" "T" none "todo" 0, Task.mk "b2" "U" none "in-progress" 0]
        ⟨"a1", some "b2"⟩
      = [Task.mk "a1" "T" none "in-progress" 0, Task.mk "b2" "U" none "in-progress" 0] := by
  constructor
  · rw [(C1_dragEnd_resolution _ _ (Task.mk "a1" "T" none "todo" 0) (by decide)).1
        "complete" rfl (by decide)]
    decide
  · rw [(C1_dragEnd_resolution _ _ (Task.mk "a1" "T" none "todo" 0) (by decide)).2
        "b2" (Task.mk "b2" "U" none "in-progress" 0) rfl (by decide) (by decide) (by decide)]
    decide

/-- C2: in every reachable tasks state every stored status is one of the three
enumerated values; the proof is by induction over the operations (`addTask`,
`deleteTask`, `handleDragEnd`), so each of them preserves the invariant. -/
theorem C2_status_invariant (ts : List Task) (h : ReachTasks ts) :
    ∀ t ∈ ts, t.status = "todo" ∨ t.status = "in-progress" ∨ t.status = "complete" := by
  induction h with
  | init => intro t ht; exact absurd ht (List.not_mem_nil t)
  | drag ts ev hr ih =>
    intro t ht
    rcases dragEnd_status_mem ts ev t ht with hm | hm
    · rw [List.mem_map] at hm
      obtain ⟨x, hx, hs⟩ := hm
      rw [← hs]
      exact ih x hx
    · simpa [colIds, COLUMNS] using hm
  | add ts title desc st id now hr hst ih =>
    intro t ht
    unfold addTask at ht
    split at ht
    · exact ih t ht
    · rw [List.mem_append] at ht
      rcases ht with ht | ht
      · exact ih t ht
      · rw [List.mem_singleton] at ht
        subst ht
        simpa [colIds, COLUMNS] using hst
  | del ts id hr ih =>
    intro t ht
    exact ih t (List.mem_of_mem_filter ht)

/-- C2 witness: the singleton board reached by one `addTask` into `todo`. -/
theorem C2_status_invariant_witness :
    (Task.mk "x1" "A" none "todo" 0).status = "todo"
    ∨ (Task.mk "x1" "A" none "todo" 0).status = "in-progress"
    ∨ (Task.mk "x1" "A" none "todo" 0).status = "complete" :=
  C2_status_invariant (addTask [] "A" "" "todo" "x1" 0)
    (ReachTasks.add [] "A" "" "todo" "x1" 0 ReachTasks.init (by decide))
    (Task.mk "x1" "A" none "todo" 0) (by decide)

/-- C4: a drag end rewrites at most the status field of the dragged task in
place — position for position, id, title, description and creation time are
unchanged, and any task other than the dragged one is entirely unchanged;
`addTask` extends the array without touching existing tasks, and `deleteTask`
removes tasks without modifying the survivors. -/
theorem C4_dragEnd_frame (tasks : List Task) (ev : DragEndEvent) :
    List.Forall₂ (fun a b => a.id = b.id ∧ a.title = b.title ∧ a.description = b.description
        ∧ a.createdAt = b.createdAt ∧ (a.id ≠ ev.activeId → b = a))
      tasks (handleDragEnd tasks ev)
    ∧ (∀ title desc st id now, ∃ appended, addTask tasks title desc st id now = tasks ++ appended)
    ∧ (∀ id, (deleteTask tasks id).Sublist tasks) := by
  refine ⟨?_, ?_, ?_⟩
  · have hid : List.Forall₂ (fun a b => a.id = b.id ∧ a.title = b.title
        ∧ a.description = b.description ∧ a.createdAt = b.createdAt
        ∧ (a.id ≠ ev.activeId → b = a)) tasks tasks :=
      List.forall₂_same.mpr fun t _ => ⟨rfl, rfl, rfl, rfl, fun _ => rfl⟩
    have hmap : ∀ s : String, List.Forall₂ (fun a b => a.id = b.id ∧ a.title = b.title
        ∧ a.description = b.description ∧ a.createdAt = b.createdAt
        ∧ (a.id ≠ ev.activeId → b = a)) tasks
        (tasks.map (fun t => if t.id == ev.activeId then { t with status := s } else t)) := by
      intro s
      rw [List.forall₂_map_right_iff]
      refine List.forall₂_same.mpr fun t _ => ?_
      by_cases h : t.id = ev.activeId
      · simp [h]
      · simp [h]
    unfold handleDragEnd
    split
    · exact hid
    · split
      · exact hid
      · split
        · exact hmap _
        · split
          · split
            · exact hmap _
            · exact hid
          · exact hid
  · intro title desc st id now
    unfold addTask
    split
    · exact ⟨[], (List.append_nil tasks).symm⟩
    · exact ⟨_, rfl⟩
  · exact fun id => List.filter_sublist tasks

/-- C5: a drag end keeps the stored id sequence (hence the relative order) of
the tasks array, and `addTask` only ever appends at the end, so the stored
order remains insertion order. -/
theorem C5_insertion_order (tasks : List Task) (ev : DragEndEvent)
    (title desc st id : String) (now : Nat) :
    (handleDragEnd tasks ev).map Task.id = tasks.map Task.id
    ∧ ∃ appended, addTask tasks title desc st id now = tasks ++ appended := by
  refine ⟨dragEnd_map_id tasks ev, ?_⟩
  unfold addTask
  split
  · exact ⟨[], (List.append_nil tasks).symm⟩
  · exact ⟨_, rfl⟩

/-- C6: a title, todo text, or description whose trim is empty is rejected
(`addTask` / `addTodo` leave their collection unchanged); accepted input is
stored trimmed, and an empty trimmed description is stored as no description. -/
theorem C6_trim_validation (tasks : List Task) (todos : List QuickTodo)
    (title desc st id : String) (now : Nat) (txt tid : String) :
    (jsTrim title = "" → addTask tasks title desc st id now = tasks)
    ∧ (jsTrim title ≠ "" → addTask tasks title desc st id now
        = tasks ++ [{ id := id, title := jsTrim title,
                      description := if jsTrim desc = "" then none else some (jsTrim desc),
                      status := st, createdAt := now }])
    ∧ (jsTrim txt = "" → addTodo todos txt tid = todos)
    ∧ (jsTrim txt ≠ "" → addTodo todos txt tid
        = todos ++ [{ id := tid, text := jsTrim txt, done := false }]) :=
  ⟨fun h => by simp [addTask, h], fun h => by simp [addTask, h],
   fun h => by simp [addTodo, h], fun h => by simp [addTodo, h]⟩

/-- C6 witness: blank inputs are dropped; padded inputs are stored trimmed,
with a blank description stored as no description. -/
theorem C6_trim_validation_witness :
    addTask [] "  " "d" "todo" "i1" 0 = []
    ∧ addTask [] " A " " " "todo" "i1" 5
        = [{ id := "i1", title := "A", description := none, status := "todo", createdAt := 5 }]
    ∧ addTodo [] " " "j1" = []
    ∧ addTodo [] " buy milk " "j1" = [{ id := "j1", text := "buy milk", done := false }] := by
  refine ⟨(C6_trim_validation [] [] "  " "d" "todo" "i1" 0 " " "j1").1 (by decide), ?_,
    (C6_trim_validation [] [] "x" "d" "todo" "i1" 0 " " "j1").2.2.1 (by decide), ?_⟩
  · rw [(C6_trim_validation [] [] " A " " " "todo" "i1" 5 " " "j1").2.1 (by decide)]
    decide
  · rw [(C6_trim_validation [] [] "x" "d" "todo" "i1" 0 " buy milk " "j1").2.2.2 (by decide)]
    decide

/-- C9 as stated is refuted by a board containing a task whose id is the
column id `todo`: the drop target is a task whose status (`complete`) equals
the dragged task's status, yet the board changes, because the column check
runs first and captures the target id. -/
theorem C9_dragEnd_noop_refuted :
    List.find? (fun t => t.id == "todo")
        [Task.mk "a1" "T" none "complete" 0, Task.mk "todo" "U" none "complete" 0]
      = some (Task.mk "todo" "U" none "complete" 0)
    ∧ (Task.mk "todo" "U" none "complete" 0).status = (Task.mk "a1" "T" none "complete" 0).status
    ∧ handleDragEnd [Task.mk "a1" "T" none "complete" 0, Task.mk "todo" "U" none "complete" 0]
        ⟨"a1", some "todo"⟩
      ≠ [Task.mk "a1" "T" none "complete" 0, Task.mk "todo" "U" none "complete" 0] := by
  decide

/-- C9 amended: a drag end leaves the tasks array exactly unchanged when the
drop target is absent, or the dragged id matches no task, or the drop target
id is not a column id and is the id of a task whose status equals the dragged
task's status. -/
theorem C9_dragEnd_noop (tasks : List Task) (ev : DragEndEvent) :
    (ev.overId = none → handleDragEnd tasks ev = tasks)
    ∧ (tasks.find? (fun t => t.id == ev.activeId) = none → handleDragEnd tasks ev = tasks)
    ∧ (∀ oid a o, ev.overId = some oid → oid ∉ colIds →
        tasks.find? (fun t => t.id == ev.activeId) = some a →
        tasks.find? (fun t => t.id == oid) = some o →
        o.status = a.status → handleDragEnd tasks ev = tasks) := by
  refine ⟨fun h => ?_, fun h => ?_, fun oid a o hov hnc ha ho hst => ?_⟩
  · unfold handleDragEnd
    rw [h]
  · unfold handleDragEnd
    cases ev.overId
    · rfl
    · simp only [h]
  · unfold handleDragEnd
    simp only [hov, ha, col_find_none oid hnc, ho]
    rw [if_neg fun hne => hne hst.symm]

/-- C9 witness: the three no-op cases at concrete inputs: no drop target,
unknown dragged id, and a same-status task target whose id is no column id. -/
theorem C9_dragEnd_noop_witness :
    handleDragEnd [Task.mk "a1" "T" none "todo" 0] ⟨"a1", none⟩
      = [Task.mk "a1" "T" none "todo" 0]
    ∧ handleDragEnd [Task.mk "a1" "T" none "todo" 0] ⟨"zz", some "todo"⟩
      = [Task.mk "a1" "T" none "todo" 0]
    ∧ handleDragEnd [Task.mk "a1" "T" none "todo" 0, Task.mk "b2" "U" none "todo" 0]
        ⟨"a1", some "b2"⟩
      = [Task.mk "a1" "T" none "todo" 0, Task.mk "b2" "U" none "todo" 0] :=
  ⟨(C9_dragEnd_noop _ _).1 rfl,
   (C9_dragEnd_noop _ _).2.1 (by decide),
   (C9_dragEnd_noop _ _).2.2 "b2" (Task.mk "a1" "T" none "todo" 0)
     (Task.mk "b2" "U" none "todo" 0) rfl (by decide) (by decide) (by decide) (by decide)⟩

/-- C10: `toggleTodo` flips exactly the `done` flag of the todo carrying the
given id — ids and texts are untouched and every other todo is entirely
unchanged — and toggling twice with the same id restores the original list. -/
theorem C10_toggle_frame_involution (todos : List QuickTodo) (id : String) :
    List.Forall₂ (fun a b => a.id = b.id ∧ a.text = b.text
        ∧ (a.id ≠ id → b = a) ∧ (a.id = id → b.done = !a.done))
      todos (toggleTodo todos id)
    ∧ toggleTodo (toggleTodo todos id) id = todos := by
  constructor
  · unfold toggleTodo
    rw [List.forall₂_map_right_iff]
    refine List.forall₂_same.mpr fun t _ => ?_
    by_cases h : t.id = id
    · simp [h]
    · simp [h]
  · unfold toggleTodo
    rw [List.map_map]
    have hpt : ∀ t : QuickTodo,
        ((fun t => if t.id == id then { t with done := !t.done } else t) ∘
         (fun t => if t.id == id then { t with done := !t.done } else t)) t = t := by
      intro t
      by_cases h : t.id = id
      · simp [h, Function.comp]
        rw [← h]
      · simp [h, Function.comp]
    rw [List.map_congr_left fun t _ => hpt t]
    simp

/-- C3 as stated is refuted: `generateId` is a pure function of the
`Math.random()` draw, and nothing prevents two draws from coinciding; two
`addTask` calls whose draws coincide store two tasks with the same id. -/
theorem C3_unique_ids_refuted :
    (addTask (addTask [] "A" "" "todo" (generateId ['q','8','k','z','f','3','m','0','p','w']) 0)
        "B" "" "todo" (generateId ['q','8','k','z','f','3','m','0','p','w']) 1).map Task.id
      = ["q8kzf3m0p", "q8kzf3m0p"]
    ∧ ¬ ((addTask
          (addTask [] "A" "" "todo" (generateId ['q','8','k','z','f','3','m','0','p','w']) 0)
          "B" "" "todo" (generateId ['q','8','k','z','f','3','m','0','p','w']) 1).map
            Task.id).Nodup := by
  decide

/-- C3 amended: as long as every id `generateId` hands out is fresh for its
collection (which the random draw makes likely but cannot guarantee), no two
tasks share an id and no two quick todos share an id, through every operation. -/
theorem C3_unique_ids (ts : List Task) (ds : List QuickTodo) (h : ReachBoardFresh ts ds) :
    (ts.map Task.id).Nodup ∧ (ds.map QuickTodo.id).Nodup := by
  induction h with
  | init => exact ⟨List.nodup_nil, List.nodup_nil⟩
  | drag ts ds ev hr ih => exact ⟨by rw [dragEnd_map_id]; exact ih.1, ih.2⟩
  | addT ts ds title desc st id now hr hfresh ih =>
    refine ⟨?_, ih.2⟩
    unfold addTask
    split
    · exact ih.1
    · rw [List.map_append, List.nodup_append]
      refine ⟨ih.1, List.nodup_singleton _, ?_⟩
      intro a ha hb
      rw [List.map_singleton, List.mem_singleton] at hb
      subst hb
      exact hfresh ha
  | delT ts ds id hr ih =>
    exact ⟨(List.Sublist.map Task.id (List.filter_sublist ts)).nodup ih.1, ih.2⟩
  | addD ts ds txt id hr hfresh ih =>
    refine ⟨ih.1, ?_⟩
    unfold addTodo
    split
    · exact ih.2
    · rw [List.map_append, List.nodup_append]
      refine ⟨ih.2, List.nodup_singleton _, ?_⟩
      intro a ha hb
      rw [List.map_singleton, List.mem_singleton] at hb
      subst hb
      exact hfresh ha
  | togD ts ds id hr ih =>
    exact ⟨ih.1, by rw [toggle_map_id]; exact ih.2⟩
  | delD ts ds id hr ih =>
    exact ⟨ih.1, (List.Sublist.map QuickTodo.id (List.filter_sublist ds)).nodup ih.2⟩

/-- C3 witness: a concrete board reached with fresh ids has duplicate-free
id sequences in both collections. -/
theorem C3_unique_ids_witness :
    ((addTask [] "A" "" "todo" "x1" 0).map Task.id).Nodup
    ∧ ((addTodo [] "b" "y1").map QuickTodo.id).Nodup :=
  C3_unique_ids _ _
    (ReachBoardFresh.addD _ _ "b" "y1"
      (ReachBoardFresh.addT _ _ "A" "" "todo" "x1" 0 ReachBoardFresh.init (by decide))
      (by decide))

/-! ### JSON documents

The persistence layer stores `JSON.stringify(tasks)` and `JSON.stringify(todos)`
under the keys `vibe-tasks` / `vibe-todos` and reads them back with
`JSON.parse`. `Jv` is the JSON document tree; `emitJv` models `JSON.stringify`
(no extra whitespace, insertion-ordered object fields, `undefined`-valued
fields omitted) and `parseValue` / `jsonParse` model `JSON.parse` (full JSON
grammar, whitespace tolerated, strict about leading zeros, escapes, and
trailing input). String content and object keys are kept as character lists;
a number is kept as its source lexeme, so no floating-point rounding is
modelled — the app only ever stores the integer `Date.now()`. -/
inductive Jv where
  | null
  | bool (b : Bool)
  | num (lex : List Char)
  | str (cs : List Char)
  | arr (elems : List Jv)
  | obj (fields : List (List Char × Jv))

/-- Decimal digit test, as in the JSON number grammar. -/
def isDigitCh (c : Char) : Bool := '0' ≤ c && c ≤ '9'

/-- The four JSON whitespace characters. -/
def isJsonWs (c : Char) : Bool := c = ' ' || c = '\t' || c = '\n' || c = '\r'

/-- Drop leading JSON whitespace. -/
def skipWs : List Char → List Char
  | [] => []
  | c :: r => if isJsonWs c then skipWs r else c :: r

/-- The character of a decimal digit. -/
def digitCh (d : Nat) : Char := Char.ofNat (48 + d)

/-- The value of a decimal digit character. -/
def chDigit (c : Char) : Nat := c.toNat - 48

/-- The character of a hexadecimal digit, lower case as `JSON.stringify` emits. -/
def hexCh (d : Nat) : Char := if d < 10 then Char.ofNat (48 + d) else Char.ofNat (87 + d)

/-- The value of a hexadecimal digit character, either case. -/
def hexValCh (c : Char) : Option Nat :=
  if '0' ≤ c && c ≤ '9' then some (c.toNat - 48)
  else if 'a' ≤ c && c ≤ 'f' then some (c.toNat - 87)
  else if 'A' ≤ c && c ≤ 'F' then some (c.toNat - 55)
  else none

/-- One character as `JSON.stringify` escapes it inside a string literal:
quote and backslash escaped, the five short control escapes, `\u00XX` for the
remaining control characters, everything else verbatim. -/
def escCh (c : Char) : List Char :=
  if c = '"' then ['\\', '"']
  else if c = '\\' then ['\\', '\\']
  else if c = '\x08' then ['\\', 'b']
  else if c = '\t' then ['\\', 't']
  else if c = '\n' then ['\\', 'n']
  else if c = '\x0c' then ['\\', 'f']
  else if c = '\r' then ['\\', 'r']
  else if c.toNat < 32 then ['\\', 'u', '0', '0', hexCh (c.toNat / 16), hexCh (c.toNat % 16)]
  else [c]

/-- A string body, escaped. -/
def escBody (cs : List Char) : List Char := (cs.map escCh).flatten

/-- The decimal lexeme of a natural number, as `JSON.stringify` renders
`Date.now()`. -/
def natLex (n : Nat) : List Char :=
  if n = 0 then ['0'] else ((Nat.digits 10 n).map digitCh).reverse

mutual
/-- `JSON.stringify`, on the document tree. -/
def emitJv : Jv → List Char
  | .null => "null".data
  | .bool true => "true".data
  | .bool false => "false".data
  | .num lex => lex
  | .str cs => '"' :: (escBody cs ++ ['"'])
  | .arr es => '[' :: (emitItems es ++ [']'])
  | .obj fs => '\x7b' :: (emitFields fs ++ ['\x7d'])
/-- Array elements: the first element, then comma-prefixed elements. -/
def emitItems : List Jv → List Char
  | [] => []
  | v :: vs => emitJv v ++ emitItemsSep vs
/-- The remaining array elements, each preceded by a comma. -/
def emitItemsSep : List Jv → List Char
  | [] => []
  | v :: vs => ',' :: (emitJv v ++ emitItemsSep vs)
/-- Object fields: the first field, then comma-prefixed fields. Each field is
a quoted key, a colon and a value. -/
def emitFields : List (List Char × Jv) → List Char
  | [] => []
  | (k, x) :: fs => ('"' :: (escBody k ++ '"' :: ':' :: emitJv x)) ++ emitFieldsSep fs
/-- The remaining object fields, each preceded by a comma. -/
def emitFieldsSep : List (List Char × Jv) → List Char
  | [] => []
  | (k, x) :: fs => ',' :: (('"' :: (escBody k ++ '"' :: ':' :: emitJv x)) ++ emitFieldsSep fs)
end

/-- The value of a `\uXXXX` escape. -/
def parseHex4 (h1 h2 h3 h4 : Char) : Option Nat :=
  match hexValCh h1, hexValCh h2, hexValCh h3, hexValCh h4 with
  | some a, some b, some c, some d => some (((a * 16 + b) * 16 + c) * 16 + d)
  | _, _, _, _ => none

/-- A single-character escape, undone. -/
def unescCh (e : Char) : Option Char :=
  if e = '"' then some '"'
  else if e = '\\' then some '\\'
  else if e = '/' then some '/'
  else if e = 'b' then some '\x08'
  else if e = 'f' then some '\x0c'
  else if e = 'n' then some '\n'
  else if e = 'r' then some '\r'
  else if e = 't' then some '\t'
  else none

/-- The body of a string literal, after the opening quote: unescape up to the
closing quote, rejecting raw control characters and bad escapes as `JSON.parse`
does. The accumulator holds the decoded prefix, reversed. -/
def parseStrBody : List Char → List Char → Option (List Char × List Char)
  | [], _ => none
  | c :: r, acc =>
    if c = '"' then some (acc.reverse, r)
    else if c = '\\' then
      match r with
      | [] => none
      | e :: r2 =>
        if e = 'u' then
          match r2 with
          | h1 :: h2 :: h3 :: h4 :: r3 =>
            match parseHex4 h1 h2 h3 h4 with
            | some n => parseStrBody r3 (Char.ofNat n :: acc)
            | none => none
          | _ => none
        else
          match unescCh e with
          | some d => parseStrBody r2 (d :: acc)
          | none => none
    else if c.toNat < 32 then none
    else parseStrBody r (c :: acc)

/-- The longest digit run at the head of the input, and the rest. -/
def digitSpan : List Char → List Char × List Char
  | [] => ([], [])
  | c :: r =>
    if isDigitCh c then
      let (ds, rest) := digitSpan r
      (c :: ds, rest)
    else ([], c :: r)

/-- The optional exponent part of a number, appended to the lexeme so far. -/
def parseExpPart (lex : List Char) (cs : List Char) : Option (List Char × List Char) :=
  match cs with
  | [] => some (lex, [])
  | c :: r =>
    if c = 'e' || c = 'E' then
      let (sg, r1) : List Char × List Char :=
        match r with
        | s :: r2 => if s = '+' || s = '-' then ([s], r2) else ([], r)
        | [] => ([], r)
      match digitSpan r1 with
      | ([], _) => none
      | (eds, r2) => some (lex ++ c :: (sg ++ eds), r2)
    else some (lex, cs)

/-- The optional fraction part of a number, then the exponent part. -/
def parseFrac (lex : List Char) (cs : List Char) : Option (List Char × List Char) :=
  match cs with
  | [] => some (lex, [])
  | c :: r =>
    if c = '.' then
      match digitSpan r with
      | ([], _) => none
      | (fds, cs3) => parseExpPart (lex ++ '.' :: fds) cs3
    else parseExpPart lex cs

/-- The integer part of a number after the optional sign: one digit, which may
be `0` only on its own (the JSON leading-zero rule), then more digits. -/
def parseNumBody (cs : List Char) (sgn : List Char) : Option (List Char × List Char) :=
  match cs with
  | [] => none
  | d :: r =>
    if isDigitCh d then
      let (ids, cs2) := if d = '0' then (([] : List Char), r) else digitSpan r
      parseFrac (sgn ++ d :: ids) cs2
    else none

/-- A JSON number, returned as its lexeme. -/
def parseNum (cs : List Char) : Option (List Char × List Char) :=
  match cs with
  | [] => none
  | c :: r => if c = '-' then parseNumBody r ['-'] else parseNumBody cs []

mutual
/-- `JSON.parse`, one value: fuelled so the nesting recursion is structural;
one unit of fuel is spent per recursive step, and every step follows at least
one consumed character, so `length + 1` units suffice for a whole document. -/
def parseValue : Nat → List Char → Option (Jv × List Char)
  | 0, _ => none
  | Nat.succ f, cs =>
    match skipWs cs with
    | [] => none
    | c :: r =>
      if c = 'n' then
        match r with
        | 'u' :: 'l' :: 'l' :: r2 => some (.null, r2)
        | _ => none
      else if c = 't' then
        match r with
        | 'r' :: 'u' :: 'e' :: r2 => some (.bool true, r2)
        | _ => none
      else if c = 'f' then
        match r with
        | 'a' :: 'l' :: 's' :: 'e' :: r2 => some (.bool false, r2)
        | _ => none
      else if c = '"' then
        match parseStrBody r [] with
        | some (cs2, r2) => some (.str cs2, r2)
        | none => none
      else if c = '[' then
        match skipWs r with
        | [] => none
        | c2 :: r2 =>
          if c2 = ']' then some (.arr [], r2)
          else
            match parseItems f (c2 :: r2) with
            | some (vs, r3) => some (.arr vs, r3)
            | none => none
      else if c = '\x7b' then
        match skipWs r with
        | [] => none
        | c2 :: r2 =>
          if c2 = '\x7d' then some (.obj [], r2)
          else
            match parseFields f (c2 :: r2) with
            | some (fs, r3) => some (.obj fs, r3)
            | none => none
      else if c = '-' || isDigitCh c then
        match parseNum (c :: r) with
        | some (lex, r2) => some (.num lex, r2)
        | none => none
      else none
/-- One or more comma-separated array elements, up to the closing bracket. -/
def parseItems : Nat → List Char → Option (List Jv × List Char)
  | 0, _ => none
  | Nat.succ f, cs =>
    match parseValue f cs with
    | none => none
    | some (v, r) =>
      match skipWs r with
      | [] => none
      | c :: r2 =>
        if c = ',' then
          match parseItems f r2 with
          | some (vs, r3) => some (v :: vs, r3)
          | none => none
        else if c = ']' then some ([v], r2)
        else none
/-- One or more comma-separated object fields, up to the closing brace. -/
def parseFields : Nat → List Char → Option (List (List Char × Jv) × List Char)
  | 0, _ => none
  | Nat.succ f, cs =>
    match skipWs cs with
    | [] => none
    | c :: r =>
      if c = '"' then
        match parseStrBody r [] with
        | none => none
        | some (k, r1) =>
          match skipWs r1 with
          | [] => none
          | c2 :: r2 =>
            if c2 = ':' then
              match parseValue f r2 with
              | none => none
              | some (v, r3) =>
                match skipWs r3 with
                | [] => none
                | c3 :: r4 =>
                  if c3 = ',' then
                    match parseFields f r4 with
                    | some (fs, r5) => some ((k, v) :: fs, r5)
                    | none => none
                  else if c3 = '\x7d' then some ([(k, v)], r4)
                  else none
            else none
      else none
end

/-- `JSON.parse`, a whole document: one value and then only whitespace. -/
def jsonParse (s : String) : Option Jv :=
  match parseValue (s.data.length + 1) s.data with
  | some (v, r) => if skipWs r = [] then some v else none
  | none => none

/-- A continuation that cannot extend a number lexeme: empty, or starting with
no digit, no dot and no exponent letter. Commas, brackets, braces and the end
of the document all qualify. -/
def numOk : List Char → Bool
  | [] => true
  | c :: _ => !(isDigitCh c || c = '.' || c = 'e' || c = 'E')

/-! ### Round trip of the number codec -/

/-- Facts about decimal digit characters, for every digit. -/
theorem digitCh_props : ∀ d < 10, isDigitCh (digitCh d) = true ∧ chDigit (digitCh d) = d
    ∧ digitCh d ≠ '-' ∧ digitCh d ≠ '.' ∧ digitCh d ≠ 'e' ∧ digitCh d ≠ 'E'
    ∧ digitCh d ≠ ',' ∧ digitCh d ≠ ']' ∧ digitCh d ≠ '\x7d' ∧ digitCh d ≠ '"'
    ∧ isJsonWs (digitCh d) = false
    ∧ digitCh d ≠ 'n' ∧ digitCh d ≠ 't' ∧ digitCh d ≠ 'f'
    ∧ digitCh d ≠ '[' ∧ digitCh d ≠ '\x7b' := by decide

/-- A nonzero digit does not print as the zero character. -/
theorem digitCh_ne_zero : ∀ d < 10, d ≠ 0 → digitCh d ≠ '0' := by decide

/-- Hexadecimal digit characters read back as their value. -/
theorem hexValCh_hexCh : ∀ d < 16, hexValCh (hexCh d) = some d := by decide

/-- A rendered natural number is never empty. -/
theorem natLex_ne_nil (n : Nat) : natLex n ≠ [] := by
  unfold natLex
  split
  · simp
  · rename_i h
    simp [Nat.digits_ne_nil_iff_ne_zero, h]

/-- Every character of a rendered natural number is a digit. -/
theorem natLex_all_digits (n : Nat) : ∀ c ∈ natLex n, isDigitCh c = true := by
  unfold natLex
  split
  · intro c hc
    rw [List.mem_singleton] at hc
    subst hc
    decide
  · intro c hc
    rw [List.mem_reverse, List.mem_map] at hc
    obtain ⟨d, hd, rfl⟩ := hc
    exact (digitCh_props d (Nat.digits_lt_base (by norm_num) hd)).1

/-- A rendered natural number is `0` alone, or starts with a nonzero digit
followed by digits. -/
theorem natLex_shape (n : Nat) :
    natLex n = ['0']
    ∨ ∃ d t, natLex n = digitCh d :: t ∧ d < 10 ∧ d ≠ 0 ∧ ∀ c ∈ t, isDigitCh c = true := by
  unfold natLex
  by_cases h : n = 0
  · left
    simp [h]
  · right
    rw [if_neg h]
    have hne : Nat.digits 10 n ≠ [] := Nat.digits_ne_nil_iff_ne_zero.mpr h
    obtain ⟨l, d, hld⟩ : ∃ l d, Nat.digits 10 n = l ++ [d] :=
      ⟨(Nat.digits 10 n).dropLast, (Nat.digits 10 n).getLast hne,
        (List.dropLast_append_getLast hne).symm⟩
    refine ⟨d, (l.map digitCh).reverse, ?_, ?_, ?_, ?_⟩
    · rw [hld]
      simp
    · exact Nat.digits_lt_base (by norm_num)
        (by rw [hld]; exact List.mem_append_right _ (List.mem_singleton_self d))
    · have hlast := Nat.getLast_digit_ne_zero 10 h
      have h1 : (Nat.digits 10 n).getLast? = some d := by
        rw [hld]
        exact List.getLast?_concat l
      rw [List.getLast?_eq_getLast _ hne, Option.some_inj] at h1
      rwa [h1] at hlast
    · intro c hc
      rw [List.mem_reverse, List.mem_map] at hc
      obtain ⟨d2, hd2, rfl⟩ := hc
      exact (digitCh_props d2 (Nat.digits_lt_base (by norm_num)
        (by rw [hld]; exact List.mem_append_left _ hd2))).1

/-- The decimal value of a big-endian digit-character list. -/
def charsToNat (ds : List Char) : Nat := Nat.ofDigits 10 ((ds.map chDigit).reverse)

/-- Reading a rendered natural number back recovers it. -/
theorem charsToNat_natLex (n : Nat) : charsToNat (natLex n) = n := by
  unfold charsToNat natLex
  by_cases h : n = 0
  · simp [h, chDigit, Nat.ofDigits]
  · rw [if_neg h, List.map_reverse, List.reverse_reverse, List.map_map]
    have heq : (Nat.digits 10 n).map (chDigit ∘ digitCh) = Nat.digits 10 n := by
      rw [show Nat.digits 10 n = (Nat.digits 10 n).map id by simp]
      rw [List.map_map]
      refine List.map_congr_left fun d hd => ?_
      simp only [Function.comp, id]
      exact (digitCh_props d (Nat.digits_lt_base (by norm_num) (by simpa using hd))).2.1
    rw [heq, Nat.ofDigits_digits]

/-- `digitSpan` takes nothing from a continuation that cannot extend a number. -/
theorem digitSpan_stop {cs : List Char} (h : numOk cs = true) : digitSpan cs = ([], cs) := by
  cases cs with
  | nil => rfl
  | cons c r =>
    simp only [numOk, Bool.not_eq_true', Bool.or_eq_false_iff] at h
    simp [digitSpan, h.1.1.1]

/-- `digitSpan` consumes exactly a digit run that ends where digits end. -/
theorem digitSpan_append {ds rest : List Char} (hds : ∀ c ∈ ds, isDigitCh c = true)
    (hrest : digitSpan rest = ([], rest)) : digitSpan (ds ++ rest) = (ds, rest) := by
  induction ds with
  | nil => simpa using hrest
  | cons c t ih =>
    have hc := hds c (List.mem_cons_self c t)
    have ht := ih fun x hx => hds x (List.mem_cons_of_mem c hx)
    simp [digitSpan, hc, ht]

/-- The head facts carried by a `numOk` continuation. -/
theorem numOk_head {c : Char} {t : List Char} (h : numOk (c :: t) = true) :
    isDigitCh c = false ∧ c ≠ '.' ∧ (c = 'e' || c = 'E') = false := by
  simp only [numOk, Bool.not_eq_true', Bool.or_eq_false_iff, decide_eq_false_iff_not] at h
  refine ⟨h.1.1.1, h.1.1.2, ?_⟩
  simp [h.1.2, h.2]

/-- A number lexeme followed by a `numOk` continuation has no fraction and no
exponent part. -/
theorem parseFrac_stop (lex : List Char) {cs : List Char} (h : numOk cs = true) :
    parseFrac lex cs = some (lex, cs) := by
  cases cs with
  | nil => rfl
  | cons c r =>
    obtain ⟨hd, hdot, hexp⟩ := numOk_head h
    simp only [parseFrac, parseExpPart]
    rw [if_neg hdot]
    simp [hexp]

/-- The number round trip: parsing a rendered natural number recovers its
lexeme whenever the continuation cannot extend it. -/
theorem parseNum_natLex (n : Nat) {rest : List Char} (hrest : numOk rest = true) :
    parseNum (natLex n ++ rest) = some (natLex n, rest) := by
  rcases natLex_shape n with h0 | ⟨d, t, heq, hd10, hdne, ht⟩
  · rw [h0, List.singleton_append]
    simp only [parseNum, parseNumBody]
    simp
    exact ⟨by decide, parseFrac_stop _ hrest⟩
  · obtain ⟨hdig, _, hminus, _⟩ := digitCh_props d hd10
    rw [heq, List.cons_append]
    simp only [parseNum, parseNumBody]
    rw [if_neg hminus]
    simp only [hdig, if_true]
    rw [if_neg (digitCh_ne_zero d hd10 hdne),
      digitSpan_append ht (digitSpan_stop hrest)]
    simpa using parseFrac_stop (digitCh d :: t) hrest

/-! ### Round trip of the string codec -/

/-- The `\u00XX` escape of a control character reads back as its code. -/
theorem parseHex4_control (m : Nat) (hm : m < 256) :
    parseHex4 '0' '0' (hexCh (m / 16)) (hexCh (m % 16)) = some m := by
  have h0 : hexValCh '0' = some 0 := by decide
  have hhi := hexValCh_hexCh (m / 16) (by omega)
  have hlo := hexValCh_hexCh (m % 16) (by omega)
  simp [parseHex4, h0, hhi, hlo]
  omega

/-- Parsing one escaped character undoes the escape. -/
theorem escStep (c : Char) (acc X : List Char) :
    parseStrBody (escCh c ++ X) acc = parseStrBody X (c :: acc) := by
  unfold escCh
  by_cases h1 : c = '"'
  · rw [if_pos h1]; subst h1; rw [parseStrBody.eq_def]; simp [unescCh]
  · rw [if_neg h1]
    by_cases h2 : c = '\\'
    · rw [if_pos h2]; subst h2; rw [parseStrBody.eq_def]; simp [unescCh]
    · rw [if_neg h2]
      by_cases h3 : c = '\x08'
      · rw [if_pos h3]; subst h3; rw [parseStrBody.eq_def]; simp [unescCh]
      · rw [if_neg h3]
        by_cases h4 : c = '\t'
        · rw [if_pos h4]; subst h4; rw [parseStrBody.eq_def]; simp [unescCh]
        · rw [if_neg h4]
          by_cases h5 : c = '\n'
          · rw [if_pos h5]; subst h5; rw [parseStrBody.eq_def]; simp [unescCh]
          · rw [if_neg h5]
            by_cases h6 : c = '\x0c'
            · rw [if_pos h6]; subst h6; rw [parseStrBody.eq_def]; simp [unescCh]
            · rw [if_neg h6]
              by_cases h7 : c = '\r'
              · rw [if_pos h7]; subst h7; rw [parseStrBody.eq_def]; simp [unescCh]
              · rw [if_neg h7]
                by_cases h8 : c.toNat < 32
                · rw [if_pos h8]
                  simp only [List.cons_append, List.nil_append]
                  rw [parseStrBody.eq_def]
                  simp [parseHex4_control c.toNat (by omega), Char.ofNat_toNat]
                · rw [if_neg h8, List.singleton_append]
                  rw [parseStrBody.eq_def]
                  simp [h1, h2, h8]

/-- Parsing an escaped string body stops exactly at the closing quote and
recovers the original characters behind the accumulator. -/
theorem rtStrBody (cs : List Char) : ∀ acc rest : List Char,
    parseStrBody (escBody cs ++ '"' :: rest) acc = some (acc.reverse ++ cs, rest) := by
  induction cs with
  | nil =>
    intro acc rest
    simp only [escBody, List.map_nil, List.flatten_nil, List.nil_append]
    rw [parseStrBody.eq_def]
    simp
  | cons c t ih =>
    intro acc rest
    have hesc : escBody (c :: t) = escCh c ++ escBody t := by
      simp [escBody]
    rw [hesc, List.append_assoc, escStep, ih]
    simp

/-! ### Round trip of whole documents -/

/-- The JSON documents the app ever writes: every number is a rendered
natural (`Date.now()`), nested arbitrarily. -/
inductive WfJ : Jv → Prop
  | null : WfJ .null
  | bool (b : Bool) : WfJ (.bool b)
  | str (cs : List Char) : WfJ (.str cs)
  | num (n : Nat) : WfJ (.num (natLex n))
  | arr (vs : List Jv) : (∀ v ∈ vs, WfJ v) → WfJ (.arr vs)
  | obj (fs : List (List Char × Jv)) : (∀ kv ∈ fs, WfJ kv.2) → WfJ (.obj fs)

/-- `skipWs` passes a head character that is not whitespace. -/
theorem skipWs_not_ws {c : Char} (h : isJsonWs c = false) (l : List Char) :
    skipWs (c :: l) = c :: l := by
  simp [skipWs, h]

/-- A number continuation starting with a closing bracket is inert. -/
theorem numOk_rb (X : List Char) : numOk (']' :: X) = true := by
  simp only [numOk]; decide

/-- A number continuation starting with a closing brace is inert. -/
theorem numOk_rc (X : List Char) : numOk ('\x7d' :: X) = true := by
  simp only [numOk]; decide

/-- A number continuation starting with a comma is inert. -/
theorem numOk_comma (X : List Char) : numOk (',' :: X) = true := by
  simp only [numOk]; decide

/-- Every emitted well-formed value starts with a character that is neither
whitespace nor a closer nor a separator. -/
theorem emitJv_head (v : Jv) (h : WfJ v) :
    ∃ c t, emitJv v = c :: t ∧ isJsonWs c = false ∧ c ≠ ']' ∧ c ≠ '\x7d' ∧ c ≠ ',' := by
  cases h with
  | null => exact ⟨'n', _, rfl, by decide, by decide, by decide, by decide⟩
  | bool b =>
    cases b
    · exact ⟨'f', _, rfl, by decide, by decide, by decide, by decide⟩
    · exact ⟨'t', _, rfl, by decide, by decide, by decide, by decide⟩
  | str cs => exact ⟨'"', _, rfl, by decide, by decide, by decide, by decide⟩
  | num n =>
    rcases natLex_shape n with h0 | ⟨d, t, heq, hd10, _, _⟩
    · exact ⟨'0', [], by rw [show emitJv (.num (natLex n)) = natLex n from rfl, h0],
        by decide, by decide, by decide, by decide⟩
    · obtain ⟨_, _, _, _, _, _, hcm, hrb, hbc, _, hws, _⟩ := digitCh_props d hd10
      exact ⟨digitCh d, t, by rw [show emitJv (.num (natLex n)) = natLex n from rfl, heq],
        hws, hrb, hbc, hcm⟩
  | arr vs => exact ⟨'[', _, rfl, by decide, by decide, by decide, by decide⟩
  | obj fs => exact ⟨'\x7b', _, rfl, by decide, by decide, by decide, by decide⟩

/-- The array branch of the parser hands a nonempty rendered element list to
`parseItems`: the first element never starts with the closing bracket. -/
theorem parseValue_arr_red (f : Nat) (v : Jv) (vs : List Jv) (rest : List Char)
    (hwf : WfJ v) :
    parseValue (f + 1) ('[' :: (emitItems (v :: vs) ++ ']' :: rest))
      = (match parseItems f (emitItems (v :: vs) ++ ']' :: rest) with
         | some (xs, r2) => some (.arr xs, r2)
         | none => none) := by
  obtain ⟨c0, t0, hhead, hw0, hbr0, _, _⟩ := emitJv_head v hwf
  have hcons : emitItems (v :: vs) ++ ']' :: rest
      = c0 :: (t0 ++ (emitItemsSep vs ++ ']' :: rest)) := by
    simp [emitItems, hhead]
  simp only [parseValue]
  rw [skipWs_not_ws (by decide : isJsonWs '[' = false)]
  simp only [hcons, skipWs_not_ws hw0]
  simp [hbr0]

/-- The object branch of the parser hands a nonempty rendered field list to
`parseFields`: the field list always starts with the key's opening quote. -/
theorem parseValue_obj_red (f : Nat) (k : List Char) (x : Jv)
    (fs : List (List Char × Jv)) (rest : List Char) :
    parseValue (f + 1) ('\x7b' :: (emitFields ((k, x) :: fs) ++ '\x7d' :: rest))
      = (match parseFields f (emitFields ((k, x) :: fs) ++ '\x7d' :: rest) with
         | some (ms, r2) => some (.obj ms, r2)
         | none => none) := by
  have hcons : emitFields ((k, x) :: fs) ++ '\x7d' :: rest
      = '"' :: ((escBody k ++ '"' :: ':' :: emitJv x) ++ (emitFieldsSep fs ++ '\x7d' :: rest)) := by
    simp [emitFields]
  simp only [parseValue]
  rw [skipWs_not_ws (by decide : isJsonWs '\x7b' = false)]
  simp only [hcons, skipWs_not_ws (by decide : isJsonWs '"' = false)]
  simp

mutual
/-- Parsing an emitted well-formed value recovers it, given fuel beyond the
emitted length and a continuation that cannot extend a number lexeme. -/
theorem rtValue : ∀ (v : Jv) (f : Nat) (rest : List Char),
    WfJ v → (emitJv v).length < f → numOk rest = true →
    parseValue f (emitJv v ++ rest) = some (v, rest)
  | .null, f, rest, _, hf, _ => by
    cases f with
    | zero => exact absurd hf (Nat.not_lt_zero _)
    | succ f =>
      have harg : emitJv .null ++ rest = 'n' :: 'u' :: 'l' :: 'l' :: rest := rfl
      rw [harg]
      simp only [parseValue]
      rw [skipWs_not_ws (by decide : isJsonWs 'n' = false)]
      simp
  | .bool b, f, rest, _, hf, _ => by
    cases f with
    | zero => exact absurd hf (Nat.not_lt_zero _)
    | succ f =>
      cases b
      · have harg : emitJv (.bool false) ++ rest = 'f' :: 'a' :: 'l' :: 's' :: 'e' :: rest := rfl
        rw [harg]
        simp only [parseValue]
        rw [skipWs_not_ws (by decide : isJsonWs 'f' = false)]
        simp
      · have harg : emitJv (.bool true) ++ rest = 't' :: 'r' :: 'u' :: 'e' :: rest := rfl
        rw [harg]
        simp only [parseValue]
        rw [skipWs_not_ws (by decide : isJsonWs 't' = false)]
        simp
  | .num lex, f, rest, hwf, hf, hrest => by
    obtain ⟨n, rfl⟩ : ∃ n, lex = natLex n := by cases hwf; exact ⟨_, rfl⟩
    cases f with
    | zero => exact absurd hf (Nat.not_lt_zero _)
    | succ f =>
      have hemit : emitJv (.num (natLex n)) = natLex n := rfl
      have hp := parseNum_natLex n hrest
      rcases natLex_shape n with h0 | ⟨d, t, heq, hd10, hdne, ht⟩
      · rw [hemit, h0, List.singleton_append]
        simp only [parseValue]
        rw [skipWs_not_ws (by decide : isJsonWs '0' = false)]
        rw [h0, List.singleton_append] at hp
        simp [hp, show isDigitCh '0' = true from by decide]
      · obtain ⟨hdig, _, _, _, _, _, _, _, _, hq, hws, hn, ht2, hf2, hlb, hlc⟩ :=
          digitCh_props d hd10
        rw [hemit, heq, List.cons_append]
        simp only [parseValue]
        rw [skipWs_not_ws hws]
        rw [heq, List.cons_append] at hp
        simp [hn, ht2, hf2, hq, hlb, hlc, hdig, hp]
  | .str cs, f, rest, _, hf, _ => by
    cases f with
    | zero => exact absurd hf (Nat.not_lt_zero _)
    | succ f =>
      have harg : emitJv (.str cs) ++ rest = '"' :: (escBody cs ++ '"' :: rest) := by
        show ('"' :: (escBody cs ++ ['"'])) ++ rest = _
        simp
      have hstr := rtStrBody cs [] rest
      rw [harg]
      simp only [parseValue]
      rw [skipWs_not_ws (by decide : isJsonWs '"' = false)]
      simp [hstr]
  | .arr [], f, rest, _, hf, _ => by
    cases f with
    | zero => exact absurd hf (Nat.not_lt_zero _)
    | succ f =>
      have harg : emitJv (.arr []) ++ rest = '[' :: ']' :: rest := rfl
      rw [harg]
      simp only [parseValue]
      rw [skipWs_not_ws (by decide : isJsonWs '[' = false)]
      simp [skipWs_not_ws (by decide : isJsonWs ']' = false)]
  | .arr (v :: vs), f, rest, hwf, hf, _ => by
    cases f with
    | zero => exact absurd hf (Nat.not_lt_zero _)
    | succ f =>
      have hall : ∀ x ∈ v :: vs, WfJ x := by cases hwf; assumption
      have hlen : (emitItems (v :: vs)).length + 1 < f := by
        have hav : emitJv (.arr (v :: vs)) = '[' :: (emitItems (v :: vs) ++ [']']) := rfl
        rw [hav] at hf
        simp at hf
        omega
      have key := rtItems v vs f rest hall hlen
      have harg : emitJv (.arr (v :: vs)) ++ rest
          = '[' :: (emitItems (v :: vs) ++ ']' :: rest) := by
        show ('[' :: (emitItems (v :: vs) ++ [']'])) ++ rest = _
        simp
      rw [harg, parseValue_arr_red f v vs rest (hall v (List.mem_cons_self ..)), key]
  | .obj [], f, rest, _, hf, _ => by
    cases f with
    | zero => exact absurd hf (Nat.not_lt_zero _)
    | succ f =>
      have harg : emitJv (.obj []) ++ rest = '\x7b' :: '\x7d' :: rest := rfl
      rw [harg]
      simp only [parseValue]
      rw [skipWs_not_ws (by decide : isJsonWs '\x7b' = false)]
      simp [skipWs_not_ws (by decide : isJsonWs '\x7d' = false)]
  | .obj ((k, x) :: fs), f, rest, hwf, hf, _ => by
    cases f with
    | zero => exact absurd hf (Nat.not_lt_zero _)
    | succ f =>
      have hall : ∀ kv ∈ (k, x) :: fs, WfJ kv.2 := by cases hwf; assumption
      have hlen : (emitFields ((k, x) :: fs)).length + 1 < f := by
        have hov : emitJv (.obj ((k, x) :: fs))
            = '\x7b' :: (emitFields ((k, x) :: fs) ++ ['\x7d']) := rfl
        rw [hov] at hf
        simp at hf
        omega
      have key := rtFields (k, x) fs f rest hall hlen
      have harg : emitJv (.obj ((k, x) :: fs)) ++ rest
          = '\x7b' :: (emitFields ((k, x) :: fs) ++ '\x7d' :: rest) := by
        show ('\x7b' :: (emitFields ((k, x) :: fs) ++ ['\x7d'])) ++ rest = _
        simp
      rw [harg, parseValue_obj_red f k x fs rest, key]
termination_by v => sizeOf v
/-- Parsing emitted nonempty array elements recovers them up to the closing
bracket. -/
theorem rtItems : ∀ (v : Jv) (vs : List Jv) (f : Nat) (rest : List Char),
    (∀ x ∈ v :: vs, WfJ x) → (emitItems (v :: vs)).length + 1 < f →
    parseItems f (emitItems (v :: vs) ++ ']' :: rest) = some (v :: vs, rest)
  | v, [], f, rest, hall, hf => by
    cases f with
    | zero => exact absurd hf (Nat.not_lt_zero _)
    | succ f =>
      have hfe : (emitJv v).length < f := by
        simp [emitItems, emitItemsSep] at hf
        omega
      have hv := rtValue v f (']' :: rest) (hall v (List.mem_cons_self ..)) hfe (numOk_rb rest)
      have harg : emitItems [v] ++ ']' :: rest = emitJv v ++ ']' :: rest := by
        simp [emitItems, emitItemsSep]
      rw [harg]
      simp only [parseItems]
      simp [hv, skipWs_not_ws (by decide : isJsonWs ']' = false)]
  | v, w :: ws, f, rest, hall, hf => by
    cases f with
    | zero => exact absurd hf (Nat.not_lt_zero _)
    | succ f =>
      have hemit : emitItems (v :: w :: ws) = emitJv v ++ ',' :: emitItems (w :: ws) := by
        simp [emitItems, emitItemsSep]
      have hlens : (emitJv v).length < f ∧ (emitItems (w :: ws)).length + 1 < f := by
        rw [hemit] at hf
        simp at hf
        omega
      have hv := rtValue v f (',' :: (emitItems (w :: ws) ++ ']' :: rest))
        (hall v (List.mem_cons_self ..)) hlens.1 (numOk_comma _)
      have key := rtItems w ws f rest (fun x hx => hall x (List.mem_cons_of_mem _ hx)) hlens.2
      have harg : emitItems (v :: w :: ws) ++ ']' :: rest
          = emitJv v ++ (',' :: (emitItems (w :: ws) ++ ']' :: rest)) := by
        rw [hemit]
        simp
      rw [harg]
      simp only [parseItems]
      simp [hv, skipWs_not_ws (by decide : isJsonWs ',' = false), key]
termination_by v vs => sizeOf v + sizeOf vs
/-- Parsing emitted nonempty object fields recovers them up to the closing
brace. -/
theorem rtFields : ∀ (kv : List Char × Jv) (fs : List (List Char × Jv)) (f : Nat)
    (rest : List Char),
    (∀ x ∈ kv :: fs, WfJ x.2) → (emitFields (kv :: fs)).length + 1 < f →
    parseFields f (emitFields (kv :: fs) ++ '\x7d' :: rest) = some (kv :: fs, rest)
  | (k, x), [], f, rest, hall, hf => by
    cases f with
    | zero => exact absurd hf (Nat.not_lt_zero _)
    | succ f =>
      have hfe : (emitJv x).length < f := by
        simp [emitFields, emitFieldsSep] at hf
        omega
      have hv := rtValue x f ('\x7d' :: rest) (hall (k, x) (List.mem_cons_self ..)) hfe
        (numOk_rc rest)
      have hstr := rtStrBody k [] (':' :: (emitJv x ++ '\x7d' :: rest))
      simp only [List.reverse_nil, List.nil_append] at hstr
      have harg : emitFields [(k, x)] ++ '\x7d' :: rest
          = '"' :: (escBody k ++ '"' :: (':' :: (emitJv x ++ '\x7d' :: rest))) := by
        simp [emitFields, emitFieldsSep]
      rw [harg]
      simp only [parseFields]
      rw [skipWs_not_ws (by decide : isJsonWs '"' = false)]
      simp [hstr, hv, skipWs_not_ws (by decide : isJsonWs ':' = false),
        skipWs_not_ws (by decide : isJsonWs '\x7d' = false)]
  | (k, x), kv2 :: fs, f, rest, hall, hf => by
    cases f with
    | zero => exact absurd hf (Nat.not_lt_zero _)
    | succ f =>
      have hemit : emitFields ((k, x) :: kv2 :: fs)
          = ('"' :: (escBody k ++ '"' :: ':' :: emitJv x)) ++ ',' :: emitFields (kv2 :: fs) := by
        cases kv2
        simp [emitFields, emitFieldsSep]
      have hlens : (emitJv x).length < f ∧ (emitFields (kv2 :: fs)).length + 1 < f := by
        rw [hemit] at hf
        simp at hf
        omega
      have hv := rtValue x f (',' :: (emitFields (kv2 :: fs) ++ '\x7d' :: rest))
        (hall (k, x) (List.mem_cons_self ..)) hlens.1 (numOk_comma _)
      have key := rtFields kv2 fs f rest (fun y hy => hall y (List.mem_cons_of_mem _ hy)) hlens.2
      have hstr := rtStrBody k []
        (':' :: (emitJv x ++ (',' :: (emitFields (kv2 :: fs) ++ '\x7d' :: rest))))
      simp only [List.reverse_nil, List.nil_append] at hstr
      have harg : emitFields ((k, x) :: kv2 :: fs) ++ '\x7d' :: rest
          = '"' :: (escBody k ++ '"' :: (':' :: (emitJv x
              ++ (',' :: (emitFields (kv2 :: fs) ++ '\x7d' :: rest))))) := by
        rw [hemit]
        simp
      rw [harg]
      simp only [parseFields]
      rw [skipWs_not_ws (by decide : isJsonWs '"' = false)]
      simp [hstr, hv, key, skipWs_not_ws (by decide : isJsonWs ':' = false),
        skipWs_not_ws (by decide : isJsonWs ',' = false)]
termination_by kv fs => sizeOf kv + sizeOf fs
end

/-! ### The persisted records -/

/-- `JSON.stringify` of a task object literal, keys in insertion order
(`id`, `title`, `description`, `status`, `createdAt`); an `undefined`
description is omitted, as `JSON.stringify` drops `undefined`-valued keys. -/
def encodeTask (t : Task) : Jv :=
  .obj ([(['i', 'd'], .str t.id.data), (['t', 'i', 't', 'l', 'e'], .str t.title.data)]
    ++ (match t.description with
        | some d => [(['d', 'e', 's', 'c', 'r', 'i', 'p', 't', 'i', 'o', 'n'], .str d.data)]
        | none => [])
    ++ [(['s', 't', 'a', 't', 'u', 's'], .str t.status.data),
        (['c', 'r', 'e', 'a', 't', 'e', 'd', 'A', 't'], .num (natLex t.createdAt))])

/-- `JSON.stringify` of a quick-todo object literal (`id`, `text`, `done`). -/
def encodeTodo (d : QuickTodo) : Jv :=
  .obj [(['i', 'd'], .str d.id.data), (['t', 'e', 'x', 't'], .str d.text.data),
        (['d', 'o', 'n', 'e'], .bool d.done)]

/-- Property access on a parsed object: the first field with the key. -/
def jlookup (fs : List (List Char × Jv)) (k : List Char) : Option Jv :=
  match fs with
  | [] => none
  | (k2, x) :: fs2 => if k2 = k then some x else jlookup fs2 k

/-- A string value. -/
def strVal : Jv → Option String
  | .str cs => some (String.mk cs)
  | _ => none

/-- A numeric value holding a natural number. -/
def natVal : Jv → Option Nat
  | .num lex => if lex ≠ [] ∧ lex.all isDigitCh then some (charsToNat lex) else none
  | _ => none

/-- A boolean value. -/
def boolVal : Jv → Option Bool
  | .bool b => some b
  | _ => none

/-- The typed reading of a parsed task record, field by field as the
components access it (`task.id`, `task.title`, the optional
`task.description`, `task.status`, `task.createdAt`). -/
def decodeTask (v : Jv) : Option Task :=
  match v with
  | .obj fs =>
    match (jlookup fs ['i', 'd']).bind strVal,
        (jlookup fs ['t', 'i', 't', 'l', 'e']).bind strVal,
        (jlookup fs ['s', 't', 'a', 't', 'u', 's']).bind strVal,
        (jlookup fs ['c', 'r', 'e', 'a', 't', 'e', 'd', 'A', 't']).bind natVal with
    | some id, some title, some status, some createdAt =>
      match jlookup fs ['d', 'e', 's', 'c', 'r', 'i', 'p', 't', 'i', 'o', 'n'] with
      | none => some ⟨id, title, none, status, createdAt⟩
      | some (.str dcs) => some ⟨id, title, some (String.mk dcs), status, createdAt⟩
      | some _ => none
    | _, _, _, _ => none
  | _ => none

/-- The typed reading of a parsed quick-todo record. -/
def decodeTodo (v : Jv) : Option QuickTodo :=
  match v with
  | .obj fs =>
    match (jlookup fs ['i', 'd']).bind strVal,
        (jlookup fs ['t', 'e', 'x', 't']).bind strVal,
        (jlookup fs ['d', 'o', 'n', 'e']).bind boolVal with
    | some id, some text, some done => some ⟨id, text, done⟩
    | _, _, _ => none
  | _ => none

/-- The typed reading of a parsed task array, element by element. -/
def decodeTaskList : List Jv → Option (List Task)
  | [] => some []
  | v :: vs =>
    match decodeTask v, decodeTaskList vs with
    | some t, some ts => some (t :: ts)
    | _, _ => none

/-- A parsed `vibe-tasks` document read as the tasks array. -/
def decodeTasks (v : Jv) : Option (List Task) :=
  match v with
  | .arr vs => decodeTaskList vs
  | _ => none

/-- The typed reading of a parsed quick-todo array, element by element. -/
def decodeTodoList : List Jv → Option (List QuickTodo)
  | [] => some []
  | v :: vs =>
    match decodeTodo v, decodeTodoList vs with
    | some d, some ds => some (d :: ds)
    | _, _ => none

/-- A parsed `vibe-todos` document read as the quick-todos array. -/
def decodeTodos (v : Jv) : Option (List QuickTodo) :=
  match v with
  | .arr vs => decodeTodoList vs
  | _ => none

/-! ### The storage model -/

/-- The three localStorage entries the app uses: the strings stored under
`vibe-tasks`, `vibe-todos` and `vibe-notes` (`none` for a missing entry). -/
structure Storage where
  vibeTasks : Option String
  vibeTodos : Option String
  vibeNotes : Option String

/-- The tasks `useState` initialiser:
`const saved = localStorage.getItem('vibe-tasks'); return saved ? JSON.parse(saved) : []`.
A missing entry and the empty string (both falsy) fall back to the empty
array; any other string goes to `JSON.parse`, whose failure (`none`) is an
uncaught exception with no recovery path. -/
def initTasksRaw (saved : Option String) : Option Jv :=
  match saved with
  | none => some (.arr [])
  | some s => if s = "" then some (.arr []) else jsonParse s

/-- The todos `useState` initialiser, identical in shape for `vibe-todos`. -/
def initTodosRaw (saved : Option String) : Option Jv :=
  match saved with
  | none => some (.arr [])
  | some s => if s = "" then some (.arr []) else jsonParse s

/-- The notes initialiser: `localStorage.getItem('vibe-notes') || ''`. -/
def initNotes (saved : Option String) : String :=
  match saved with
  | none => ""
  | some s => if s = "" then "" else s

/-- The persist effect for tasks: `JSON.stringify(tasks)` under `vibe-tasks`. -/
def persistTasks (ts : List Task) : String :=
  String.mk (emitJv (.arr (ts.map encodeTask)))

/-- The persist effect for todos: `JSON.stringify(todos)` under `vibe-todos`. -/
def persistTodos (ds : List QuickTodo) : String :=
  String.mk (emitJv (.arr (ds.map encodeTodo)))

/-- The three persist effects together: storage after the app has mirrored
state `(tasks, todos, notes)`. -/
def persistState (ts : List Task) (ds : List QuickTodo) (notes : String) : Storage :=
  ⟨some (persistTasks ts), some (persistTodos ds), some notes⟩

/-- Reload of the tasks state: the initialiser, then the typed reading. -/
def loadTasks (st : Storage) : Option (List Task) :=
  (initTasksRaw st.vibeTasks).bind decodeTasks

/-- Reload of the todos state. -/
def loadTodos (st : Storage) : Option (List QuickTodo) :=
  (initTodosRaw st.vibeTodos).bind decodeTodos

/-- Reload of the notes state. -/
def loadNotes (st : Storage) : String := initNotes st.vibeNotes

/-! ### The round trip of the persisted records -/

/-- Rebuilding a string from its characters is the identity. -/
theorem mk_data (s : String) : String.mk s.data = s := rfl

/-- Every encoded task is a well-formed document. -/
theorem wf_encodeTask (t : Task) : WfJ (encodeTask t) := by
  refine WfJ.obj _ fun kv hkv => ?_
  cases hd : t.description with
  | none =>
    unfold encodeTask at hkv
    rw [hd] at hkv
    simp at hkv
    rcases hkv with rfl | rfl | rfl | rfl
    · exact WfJ.str _
    · exact WfJ.str _
    · exact WfJ.str _
    · exact WfJ.num _
  | some d =>
    unfold encodeTask at hkv
    rw [hd] at hkv
    simp at hkv
    rcases hkv with rfl | rfl | rfl | rfl | rfl
    · exact WfJ.str _
    · exact WfJ.str _
    · exact WfJ.str _
    · exact WfJ.str _
    · exact WfJ.num _

/-- Every encoded quick todo is a well-formed document. -/
theorem wf_encodeTodo (d : QuickTodo) : WfJ (encodeTodo d) := by
  refine WfJ.obj _ fun kv hkv => ?_
  unfold encodeTodo at hkv
  simp at hkv
  rcases hkv with rfl | rfl | rfl
  · exact WfJ.str _
  · exact WfJ.str _
  · exact WfJ.bool _

/-- Reading an encoded task back as a typed record recovers it. -/
theorem decodeTask_encodeTask (t : Task) : decodeTask (encodeTask t) = some t := by
  obtain ⟨id, title, desc, status, createdAt⟩ := t
  cases desc with
  | none =>
    simp [encodeTask, decodeTask, jlookup, strVal, natVal, mk_data,
      List.all_eq_true, natLex_all_digits createdAt, natLex_ne_nil, charsToNat_natLex]
    rw [if_pos (natLex_all_digits createdAt)]
  | some d =>
    simp [encodeTask, decodeTask, jlookup, strVal, natVal, mk_data,
      List.all_eq_true, natLex_all_digits createdAt, natLex_ne_nil, charsToNat_natLex]
    rw [if_pos (natLex_all_digits createdAt)]

/-- Reading an encoded quick todo back as a typed record recovers it. -/
theorem decodeTodo_encodeTodo (d : QuickTodo) : decodeTodo (encodeTodo d) = some d := by
  obtain ⟨id, text, done⟩ := d
  simp [encodeTodo, decodeTodo, jlookup, strVal, boolVal, mk_data]

/-- Reading an encoded task array back recovers every task. -/
theorem decodeTaskList_map (ts : List Task) :
    decodeTaskList (ts.map encodeTask) = some ts := by
  induction ts with
  | nil => rfl
  | cons t ts ih => simp [decodeTaskList, decodeTask_encodeTask, ih]

/-- Reading an encoded quick-todo array back recovers every todo. -/
theorem decodeTodoList_map (ds : List QuickTodo) :
    decodeTodoList (ds.map encodeTodo) = some ds := by
  induction ds with
  | nil => rfl
  | cons d ds ih => simp [decodeTodoList, decodeTodo_encodeTodo, ih]

/-- `JSON.parse` inverts `JSON.stringify` on the persisted tasks string. -/
theorem jsonParse_persistTasks (ts : List Task) :
    jsonParse (persistTasks ts) = some (.arr (ts.map encodeTask)) := by
  have hwf : WfJ (.arr (ts.map encodeTask)) := by
    refine WfJ.arr _ fun v hv => ?_
    rw [List.mem_map] at hv
    obtain ⟨t, _, rfl⟩ := hv
    exact wf_encodeTask t
  have hrt := rtValue (.arr (ts.map encodeTask))
    ((emitJv (.arr (ts.map encodeTask))).length + 1) [] hwf (by omega) rfl
  rw [List.append_nil] at hrt
  show (match parseValue ((emitJv (.arr (ts.map encodeTask))).length + 1)
      (emitJv (.arr (ts.map encodeTask))) with
    | some (v, r) => if skipWs r = [] then some v else none
    | none => none) = _
  rw [hrt]
  simp [skipWs]

/-- `JSON.parse` inverts `JSON.stringify` on the persisted todos string. -/
theorem jsonParse_persistTodos (ds : List QuickTodo) :
    jsonParse (persistTodos ds) = some (.arr (ds.map encodeTodo)) := by
  have hwf : WfJ (.arr (ds.map encodeTodo)) := by
    refine WfJ.arr _ fun v hv => ?_
    rw [List.mem_map] at hv
    obtain ⟨d, _, rfl⟩ := hv
    exact wf_encodeTodo d
  have hrt := rtValue (.arr (ds.map encodeTodo))
    ((emitJv (.arr (ds.map encodeTodo))).length + 1) [] hwf (by omega) rfl
  rw [List.append_nil] at hrt
  show (match parseValue ((emitJv (.arr (ds.map encodeTodo))).length + 1)
      (emitJv (.arr (ds.map encodeTodo))) with
    | some (v, r) => if skipWs r = [] then some v else none
    | none => none) = _
  rw [hrt]
  simp [skipWs]

/-- A persisted array string is never the empty (falsy) string. -/
theorem persistTasks_ne_empty (ts : List Task) : persistTasks ts ≠ "" := by
  intro hcontra
  have hdata : emitJv (.arr (ts.map encodeTask)) = [] := congrArg String.data hcontra
  rw [show emitJv (.arr (ts.map encodeTask))
      = '[' :: (emitItems (ts.map encodeTask) ++ [']']) from rfl] at hdata
  cases hdata

/-- A persisted todos string is never the empty (falsy) string. -/
theorem persistTodos_ne_empty (ds : List QuickTodo) : persistTodos ds ≠ "" := by
  intro hcontra
  have hdata : emitJv (.arr (ds.map encodeTodo)) = [] := congrArg String.data hcontra
  rw [show emitJv (.arr (ds.map encodeTodo))
      = '[' :: (emitItems (ds.map encodeTodo) ++ [']']) from rfl] at hdata
  cases hdata

/-! ### Claims about persistence -/

/-- C7: the persisted form of every state round-trips through reload: parsing
the JSON string stored under `vibe-tasks` yields the in-memory tasks array,
parsing the one under `vibe-todos` yields the in-memory todos array, and the
raw string under `vibe-notes` is the in-memory notes text, so state survives
reload unchanged. -/
theorem C7_persistence_roundtrip (ts : List Task) (ds : List QuickTodo) (notes : String) :
    loadTasks (persistState ts ds notes) = some ts
    ∧ loadTodos (persistState ts ds notes) = some ds
    ∧ loadNotes (persistState ts ds notes) = notes := by
  refine ⟨?_, ?_, ?_⟩
  · show (initTasksRaw (some (persistTasks ts))).bind decodeTasks = some ts
    rw [initTasksRaw, if_neg (persistTasks_ne_empty ts), jsonParse_persistTasks]
    simp [decodeTasks, decodeTaskList_map]
  · show (initTodosRaw (some (persistTodos ds))).bind decodeTodos = some ds
    rw [initTodosRaw, if_neg (persistTodos_ne_empty ds), jsonParse_persistTodos]
    simp [decodeTodos, decodeTodoList_map]
  · show initNotes (some notes) = notes
    rw [initNotes]
    by_cases h : notes = ""
    · rw [if_pos h, h]
    · rw [if_neg h]

/-- C8 as stated is refuted by the empty string: it is persisted non-null
stored data that is not valid JSON, yet both initialisers treat it as falsy
and produce the fallback empty array instead of failing. -/
theorem C8_parse_failure_refuted :
    jsonParse "" = none
    ∧ initTasksRaw (some "") = some (Jv.arr [])
    ∧ initTodosRaw (some "") = some (Jv.arr []) :=
  ⟨rfl, rfl, rfl⟩

/-- C8 amended: for every non-empty persisted string that is not valid JSON,
state initialisation fails with the parse error — there is no recovery path
and no fallback. The empty string alone is treated like a missing entry. -/
theorem C8_parse_failure (s : String) (hne : s ≠ "") (hbad : jsonParse s = none) :
    initTasksRaw (some s) = none ∧ initTodosRaw (some s) = none := by
  rw [initTasksRaw, initTodosRaw, if_neg hne]
  exact ⟨hbad, hbad⟩

/-- C8 witness: a concrete malformed non-empty string fails both
initialisers. -/
theorem C8_parse_failure_witness :
    initTasksRaw (some "oops") = none ∧ initTodosRaw (some "oops") = none :=
  C8_parse_failure "oops" (by decide) rfl

end Vibe
